import Mathlib

/-!
A shallow embedding of the core of the email-extractor application
(src/app.py): the email regular expression, the garbage classifier,
the multi-method HTML email extractor, the URL parsing used by the
crawler, the bounded same-domain crawl loop, the result-merging
orchestration, and the (spec-described) verification engine.

Strings are Lean String values (a packed List Char in this toolchain).
Python str.lower is modelled on the ASCII range, matching Char.toLower.
External collaborators (the HTTP session, BeautifulSoup, urljoin) are
parameters of the model: a crawl environment supplies the fetch results
and the parsed document structure for each page.
-/

namespace EmailApp

/-- Python default whitespace characters (ASCII range), as stripped by str.strip(). -/
def isPyWs (c : Char) : Bool :=
  c = ' ' || c = '\t' || c = '\n' || c = '\r' || c = '\x0b' || c = '\x0c'

/-- Remove leading and trailing whitespace characters. -/
def stripChars (l : List Char) : List Char :=
  ((l.dropWhile isPyWs).reverse.dropWhile isPyWs).reverse

/-- Python str.strip() with no argument. -/
def pyStrip (s : String) : String := ⟨stripChars s.data⟩

/-- Python str.lower() on the ASCII range (the same mapping as String.toLower). -/
def pyLower (s : String) : String := ⟨s.data.map Char.toLower⟩

/-- Is the first list a contiguous sublist of the second? -/
def listIsInfix (needle : List Char) : List Char → Bool
  | [] => needle.isEmpty
  | x :: xs => needle.isPrefixOf (x :: xs) || listIsInfix needle xs

/-- Python substring test: needle in hay. -/
def strContains (hay needle : String) : Bool := listIsInfix needle.data hay.data

/-- Python str.startswith. -/
def strStartsWith (s p : String) : Bool := p.data.isPrefixOf s.data

/-- Python str.endswith. -/
def strEndsWith (s p : String) : Bool := p.data.isSuffixOf s.data

/-- Split at the first occurrence of a separator list; none when absent. -/
def splitOnceChars (sep : List Char) : List Char → Option (List Char × List Char)
  | [] => none
  | c :: cs =>
    if sep.isPrefixOf (c :: cs) then some ([], (c :: cs).drop sep.length)
    else match splitOnceChars sep cs with
      | some (a, b) => some (c :: a, b)
      | none => none

/-- Python s.split(sep, 1) when sep occurs in s (two pieces); none otherwise. -/
def splitOnce (s sep : String) : Option (String × String) :=
  (splitOnceChars sep.data s.data).map (fun p => (⟨p.1⟩, ⟨p.2⟩))

/-- Python s.split(sep)[0]: the part before the first occurrence of sep, or all of s. -/
def takeBefore (s sep : String) : String :=
  match splitOnce s sep with
  | some (a, _) => a
  | none => s

/-- Split a character list at the first occurrence of the character c. -/
def splitAtChar (c : Char) : List Char → Option (List Char × List Char)
  | [] => none
  | x :: xs => if x = c then some ([], xs) else (splitAtChar c xs).map (fun p => (x :: p.1, p.2))

/-! ### The email regular expression

src/app.py line 34:
EMAIL_REGEX = re.compile(r(backslash-free form) [A-Za-z0-9._%+-]+@[A-Za-z0-9.-]+ dot [A-Za-z]{2,} dollar, re.I)
The pattern ends with a dollar anchor and the MULTILINE flag is not set,
so every match must end at the end of the scanned string (or just before
one final newline). The re.I flag is immaterial: every class already
contains both cases. -/

/-- Character class [A-Za-z0-9._%+-] (the local part). -/
def isLocalChar (c : Char) : Bool :=
  c.isAlphanum || c = '.' || c = '_' || c = '%' || c = '+' || c = '-'

/-- Character class [A-Za-z0-9.-] (the domain body). -/
def isDomChar (c : Char) : Bool :=
  c.isAlphanum || c = '.' || c = '-'

/-- dom matches the domain tail of EMAIL_REGEX exactly: it splits at some dot
into a nonempty body of domain characters and an alphabetic TLD of length ≥ 2. -/
def domainMatch (dom : List Char) : Bool :=
  (List.range dom.length).any (fun i =>
    match dom.drop i with
    | '.' :: tld =>
      !(dom.take i).isEmpty && (dom.take i).all isDomChar &&
      decide (2 ≤ tld.length) && tld.all Char.isAlpha
    | _ => false)

/-- The whole list matches EMAIL_REGEX exactly (re.fullmatch): a nonempty run of
local characters, one at sign, and a matching domain. -/
def emailFullmatch (l : List Char) : Bool :=
  (List.range l.length).any (fun i =>
    match l.drop i with
    | '@' :: dom => !(l.take i).isEmpty && (l.take i).all isLocalChar && domainMatch dom
    | _ => false)

/-- EMAIL_REGEX.findall: because of the trailing dollar anchor a match must end
at the end of the scan region (the input minus one final newline, if any), so
findall yields at most one match — the one starting at the leftmost position
from which the remainder of the region matches the whole pattern. -/
def regexFindall (l : List Char) : List (List Char) :=
  let b := if l.getLast? = some '\n' then l.dropLast else l
  match (List.range b.length).find? (fun p => emailFullmatch (b.drop p)) with
  | some p => [b.drop p]
  | none => []

/-- The lowercased regex matches of a string, as added to the found set
(m.lower() for m in EMAIL_REGEX.findall(s)). -/
def regexEmailsOf (s : String) : List String :=
  (regexFindall s.data).map (fun m => pyLower ⟨m⟩)

/-! ### Garbage classifier (src/app.py lines 34-116) -/

def EXCLUDED_KEYWORDS : List String :=
  ["support@", "account", "filter", "team", "hr", "enquiries", "press@", "job",
   "career", "sales", "inquiry", "yourname", "john", "example", "fraud", "scam",
   "privacy@", "no-reply@", "noreply@", "unsubscribe@"]

def EXCLUDED_DOMAINS_SUBSTR : List String :=
  ["sentry", "wixpress", "sentry.wixpress.com", "latofonts", "address",
   "yourdomain", "err.abtm.io", "sentry-next", "wix", "mysite", "yoursite",
   "amazonaws", "localhost", "invalid", "example", "website", "2x.png"]

def SKIP_EXTENSIONS : List String :=
  [".png", ".jpg", ".jpeg", "email.com", "the.benhawy", ".gif", ".svg",
   ".domain", "example", ".webp", ".ico", ".bmp", ".pdf"]

/-- Character class [0-9a-f] under re.I, i.e. any hexadecimal digit. -/
def isHexCI (c : Char) : Bool :=
  c.isDigit || ('a' ≤ c && c ≤ 'f') || ('A' ≤ c && c ≤ 'F')

/-- HEX_GARBAGE_RE.fullmatch: at least 16 hexadecimal characters. -/
def hexGarbage (l : List Char) : Bool :=
  decide (16 ≤ l.length) && l.all isHexCI

/-- looks_like_garbage (src/app.py lines 84-116), decision order as in the code. -/
def looks_like_garbage (email : String) : Bool :=
  if email = "" || strContains email " " then true
  else
    let e := pyLower (pyStrip email)
    if !(emailFullmatch e.data) then true
    else match splitOnce e "@" with
      | none => true
      | some (locl, domain) =>
        if SKIP_EXTENSIONS.any (fun ext =>
            strEndsWith domain ⟨ext.data.dropWhile (· = '.')⟩ || strEndsWith domain ext) then true
        else if hexGarbage locl.data then true
        else if EXCLUDED_DOMAINS_SUBSTR.any (fun sub => strContains domain sub) then true
        else if EXCLUDED_KEYWORDS.any (fun kw => strContains e kw) then true
        else false

/-! ### Email extractor (src/app.py lines 118-191)

BeautifulSoup is an external collaborator: the parsed structure of a page
is supplied as an HtmlDoc value (or none when the parse itself raises).
For the concrete inputs used below the HtmlDoc is exactly what
BeautifulSoup html.parser exposes for that markup. -/

/-- One input tag: its value attribute and placeholder attribute, when present. -/
structure InputTag where
  value : Option String
  placeholder : Option String
deriving DecidableEq

/-- The parts of a parsed page that the extractor and the crawler read:
anchor href attributes (in document order), form action attributes,
input tags, meta content attributes (empty string when absent, matching
meta.get with default), script string contents (none when the tag has no
single string child), and all string nodes (text and comments). -/
structure HtmlDoc where
  anchorHrefs : List String
  formActions : List String
  inputTags : List InputTag
  metaContents : List String
  scriptStrings : List (Option String)
  textNodes : List String
deriving DecidableEq

/-- Insert all elements of a list into a finite set of strings. -/
def addAll (l : List String) (s : Finset String) : Finset String :=
  l.foldl (fun a e => insert e a) s

/-- The email a mailto anchor contributes: defined when the lowercased href
starts with the mailto scheme and the raw href contains the literal text
mailto: (the code splits on the raw href, so an uppercase MAILTO: href
raises IndexError instead), and the processed address is nonempty. -/
def mailtoEmailOf (href : String) : Option String :=
  if strStartsWith (pyLower href) "mailto:" then
    match splitOnce href "mailto:" with
    | some (_, rest) =>
      let e := pyLower (pyStrip (takeBefore rest "?"))
      if e = "" then none else some e
    | none => none
  else none

/-- Fold over the anchor hrefs of the mailto pass. Returns the enlarged set and
whether an exception occurred (an anchor whose lowercased href starts with
mailto: but whose raw href lacks the literal text, raising IndexError and
aborting the rest of the try block). -/
def anchorPass : List String → Finset String → Finset String × Bool
  | [], acc => (acc, false)
  | href :: rest, acc =>
    if strStartsWith (pyLower href) "mailto:" then
      match splitOnce href "mailto:" with
      | none => (acc, true)
      | some (_, tail) =>
        let e := pyLower (pyStrip (takeBefore tail "?"))
        anchorPass rest (if e = "" then acc else insert e acc)
    else anchorPass rest acc

/-- extract_emails_from_html (src/app.py lines 118-191). The url argument of
the source function is unused there and omitted. Returns the found set:
the whole-document regex scan, then (inside the try block) mailto anchors,
form actions, input values and placeholders, meta contents, script strings
and all string nodes; a parse failure or a mailto IndexError keeps whatever
was found up to that point. -/
def extract_emails_from_html (html : String) (parsed : Option HtmlDoc) : Finset String :=
  if html = "" then ∅
  else
    let base := addAll (regexEmailsOf html) ∅
    match parsed with
    | none => base
    | some doc =>
      match anchorPass doc.anchorHrefs base with
      | (acc, true) => acc
      | (acc, false) =>
        let f1 := doc.formActions.foldl (fun a s => addAll (regexEmailsOf s) a) acc
        let f2 := doc.inputTags.foldl (fun a tag =>
          let a1 := match tag.value with
            | some v => if v ≠ "" then addAll (regexEmailsOf v) a else a
            | none => a
          match tag.placeholder with
            | some v => if v ≠ "" then addAll (regexEmailsOf v) a1 else a1
            | none => a1) f1
        let f3 := doc.metaContents.foldl (fun a s => addAll (regexEmailsOf s) a) f2
        let f4 := doc.scriptStrings.foldl (fun a so =>
          match so with
          | some s => if s ≠ "" then addAll (regexEmailsOf s) a else a
          | none => a) f3
        doc.textNodes.foldl (fun a s => addAll (regexEmailsOf s) a) f4

/-- The BeautifulSoup view of the C3 markup: one anchor with a mailto href and
the two text nodes Contact and Reach sue at acme dot com. -/
def docC3 : HtmlDoc :=
  { anchorHrefs := ["mailto:joe@acme.com?subject=hi"]
    formActions := []
    inputTags := []
    metaContents := []
    scriptStrings := []
    textNodes := ["Contact", "Reach sue@acme.com"] }

/-! ### Character-level facts about the ASCII lowercase mapping -/

theorem char_toNat_ofNat_valid {n : Nat} (h : n.isValidChar) : (Char.ofNat n).toNat = n := by
  rw [Char.ofNat, dif_pos h]
  simp [Char.ofNatAux, Char.toNat, UInt32.toNat]

theorem char_isUpper_iff (c : Char) : c.isUpper = true ↔ 65 ≤ c.toNat ∧ c.toNat ≤ 90 := by
  simp [Char.isUpper, UInt32.le_def, BitVec.le_def, Char.toNat, UInt32.toNat]

theorem char_isLower_iff (c : Char) : c.isLower = true ↔ 97 ≤ c.toNat ∧ c.toNat ≤ 122 := by
  simp [Char.isLower, UInt32.le_def, BitVec.le_def, Char.toNat, UInt32.toNat]

theorem char_toLower_eq_self {c : Char} (h : c.isUpper = false) : c.toLower = c := by
  rw [Char.toLower]
  have := (char_isUpper_iff c).not
  simp [h] at this
  split
  · omega
  · rfl

theorem char_toLower_of_upper {c : Char} (h : c.isUpper = true) :
    (Char.toLower c).toNat = c.toNat + 32 := by
  rw [Char.toLower]
  rw [char_isUpper_iff] at h
  rw [if_pos (by omega)]
  exact char_toNat_ofNat_valid (Or.inl (by omega))

theorem char_isUpper_toLower (c : Char) : (Char.toLower c).isUpper = false := by
  cases h : c.isUpper
  · rw [char_toLower_eq_self h, h]
  · have h2 := char_toLower_of_upper h
    rw [char_isUpper_iff] at h
    have : ¬ ((Char.toLower c).isUpper = true) := by
      rw [char_isUpper_iff]
      omega
    simpa using this

theorem char_toLower_idem (c : Char) : (Char.toLower c).toLower = Char.toLower c :=
  char_toLower_eq_self (char_isUpper_toLower c)

theorem char_isAlpha_toLower {c : Char} (h : c.isAlpha = true) :
    (Char.toLower c).isAlpha = true := by
  rw [Char.isAlpha, Bool.or_eq_true] at h ⊢
  cases h with
  | inl h =>
    have h2 := char_toLower_of_upper h
    rw [char_isUpper_iff] at h
    refine Or.inr ((char_isLower_iff _).2 (by omega))
  | inr h =>
    have : c.isUpper = false := by
      rw [char_isLower_iff] at h
      cases hu : c.isUpper
      · rfl
      · rw [char_isUpper_iff] at hu
        omega
    rw [char_toLower_eq_self this]
    exact Or.inr h

theorem char_isDigit_toLower {c : Char} (h : c.isDigit = true) :
    (Char.toLower c).isDigit = true := by
  have hu : c.isUpper = false := by
    simp [Char.isDigit, UInt32.le_def, BitVec.le_def] at h
    cases hu : c.isUpper
    · rfl
    · rw [char_isUpper_iff] at hu
      simp [Char.toNat, UInt32.toNat] at hu
      omega
  rw [char_toLower_eq_self hu]
  exact h

theorem char_isAlphanum_toLower {c : Char} (h : c.isAlphanum = true) :
    (Char.toLower c).isAlphanum = true := by
  rw [Char.isAlphanum, Bool.or_eq_true] at h ⊢
  cases h with
  | inl h => exact Or.inl (char_isAlpha_toLower h)
  | inr h => exact Or.inr (char_isDigit_toLower h)

theorem char_toLower_punct {c x : Char} (hx : x.isUpper = false) (h : c = x) :
    Char.toLower c = x := by
  rw [h]
  exact char_toLower_eq_self hx

theorem isLocalChar_toLower {c : Char} (h : isLocalChar c = true) :
    isLocalChar (Char.toLower c) = true := by
  rw [isLocalChar] at h ⊢
  simp only [Bool.or_eq_true, decide_eq_true_eq] at h ⊢
  rcases h with ((((h | h) | h) | h) | h) | h
  · exact Or.inl (Or.inl (Or.inl (Or.inl (Or.inl (char_isAlphanum_toLower h)))))
  · exact Or.inl (Or.inl (Or.inl (Or.inl (Or.inr (char_toLower_punct (by decide) h)))))
  · exact Or.inl (Or.inl (Or.inl (Or.inr (char_toLower_punct (by decide) h))))
  · exact Or.inl (Or.inl (Or.inr (char_toLower_punct (by decide) h)))
  · exact Or.inl (Or.inr (char_toLower_punct (by decide) h))
  · exact Or.inr (char_toLower_punct (by decide) h)

theorem isDomChar_toLower {c : Char} (h : isDomChar c = true) :
    isDomChar (Char.toLower c) = true := by
  rw [isDomChar] at h ⊢
  simp only [Bool.or_eq_true, decide_eq_true_eq] at h ⊢
  rcases h with (h | h) | h
  · exact Or.inl (Or.inl (char_isAlphanum_toLower h))
  · exact Or.inl (Or.inr (char_toLower_punct (by decide) h))
  · exact Or.inr (char_toLower_punct (by decide) h)

/-- The string-level lowercase map is idempotent. -/
theorem pyLower_idem (s : String) : pyLower (pyLower s) = pyLower s := by
  simp only [pyLower, List.map_map]
  congr 1
  exact List.map_congr_left (fun c _ => char_toLower_idem c)

/-! ### Structure of regex matches -/

theorem domainMatch_iff (dom : List Char) :
    domainMatch dom = true ↔
      ∃ body tld, dom = body ++ '.' :: tld ∧ body ≠ [] ∧ body.all isDomChar = true ∧
        2 ≤ tld.length ∧ tld.all Char.isAlpha = true := by
  constructor
  · intro h
    rw [domainMatch, List.any_eq_true] at h
    obtain ⟨i, hi, hp⟩ := h
    rw [List.mem_range] at hi
    revert hp
    split
    case _ tld heq =>
      intro hp
      simp only [Bool.and_eq_true, decide_eq_true_eq, Bool.not_eq_true',
        List.isEmpty_eq_false] at hp
      refine ⟨dom.take i, tld, ?_, hp.1.1.1, hp.1.1.2, hp.1.2, hp.2⟩
      rw [← heq]
      exact (List.take_append_drop i dom).symm
    case _ =>
      intro hp
      exact absurd hp (by simp)
  · rintro ⟨body, tld, rfl, hne, hall, hlen, htld⟩
    rw [domainMatch, List.any_eq_true]
    refine ⟨body.length, ?_, ?_⟩
    · rw [List.mem_range, List.length_append, List.length_cons]
      omega
    · rw [List.drop_left, List.take_left]
      simp only [Bool.and_eq_true, decide_eq_true_eq]
      exact ⟨⟨⟨by simpa using hne, hall⟩, hlen⟩, htld⟩

theorem emailFullmatch_iff (l : List Char) :
    emailFullmatch l = true ↔
      ∃ locl dom, l = locl ++ '@' :: dom ∧ locl ≠ [] ∧ locl.all isLocalChar = true ∧
        domainMatch dom = true := by
  constructor
  · intro h
    rw [emailFullmatch, List.any_eq_true] at h
    obtain ⟨i, hi, hp⟩ := h
    rw [List.mem_range] at hi
    revert hp
    split
    case _ dom heq =>
      intro hp
      simp only [Bool.and_eq_true, Bool.not_eq_true', List.isEmpty_eq_false] at hp
      refine ⟨l.take i, dom, ?_, hp.1.1, hp.1.2, hp.2⟩
      rw [← heq]
      exact (List.take_append_drop i l).symm
    case _ =>
      intro hp
      exact absurd hp (by simp)
  · rintro ⟨locl, dom, rfl, hne, hall, hdom⟩
    rw [emailFullmatch, List.any_eq_true]
    refine ⟨locl.length, ?_, ?_⟩
    · rw [List.mem_range, List.length_append, List.length_cons]
      omega
    · rw [List.drop_left, List.take_left]
      simp only [Bool.and_eq_true]
      exact ⟨⟨by simpa using hne, hall⟩, hdom⟩

/-- A regex match stays a regex match after lowercasing (every character class
of the pattern is closed under the ASCII lowercase map). -/
theorem emailFullmatch_map_toLower {l : List Char} (h : emailFullmatch l = true) :
    emailFullmatch (l.map Char.toLower) = true := by
  rw [emailFullmatch_iff] at h ⊢
  obtain ⟨locl, dom, rfl, hne, hall, hdom⟩ := h
  refine ⟨locl.map Char.toLower, dom.map Char.toLower, ?_, ?_, ?_, ?_⟩
  · rw [List.map_append, List.map_cons]
    simp only [show '@'.toLower = '@' from by decide]
  · simpa using hne
  · rw [List.all_eq_true] at hall ⊢
    intro c hc
    rw [List.mem_map] at hc
    obtain ⟨x, hx, rfl⟩ := hc
    exact isLocalChar_toLower (hall x hx)
  · rw [domainMatch_iff] at hdom ⊢
    obtain ⟨body, tld, rfl, hbne, hball, hlen, htld⟩ := hdom
    refine ⟨body.map Char.toLower, tld.map Char.toLower, ?_, ?_, ?_, ?_, ?_⟩
    · rw [List.map_append, List.map_cons]
      simp only [show '.'.toLower = '.' from by decide]
    · simpa using hbne
    · rw [List.all_eq_true] at hball ⊢
      intro c hc
      rw [List.mem_map] at hc
      obtain ⟨x, hx, rfl⟩ := hc
      exact isDomChar_toLower (hball x hx)
    · simpa using hlen
    · rw [List.all_eq_true] at htld ⊢
      intro c hc
      rw [List.mem_map] at hc
      obtain ⟨x, hx, rfl⟩ := hc
      exact char_isAlpha_toLower (htld x hx)

/-- Every output of the regex scan is the lowercasing of a full regex match. -/
theorem mem_regexEmailsOf {e s : String} (h : e ∈ regexEmailsOf s) :
    ∃ m, e = pyLower ⟨m⟩ ∧ emailFullmatch m = true := by
  rw [regexEmailsOf, List.mem_map] at h
  obtain ⟨m, hm, rfl⟩ := h
  refine ⟨m, rfl, ?_⟩
  rw [regexFindall] at hm
  rcases hf : (List.range (if s.data.getLast? = some '\n' then s.data.dropLast
      else s.data).length).find? (fun p =>
        emailFullmatch ((if s.data.getLast? = some '\n' then s.data.dropLast
          else s.data).drop p)) with _ | p
  · rw [hf] at hm
    simp at hm
  · rw [hf] at hm
    rw [List.mem_singleton] at hm
    subst hm
    simpa using List.find?_some hf

/-- Every output of the regex scan is lowercase-fixed. -/
theorem regexEmailsOf_lowerFixed {e s : String} (h : e ∈ regexEmailsOf s) :
    pyLower e = e := by
  obtain ⟨m, rfl, _⟩ := mem_regexEmailsOf h
  exact pyLower_idem _

/-- Every output of the regex scan is itself a full regex match. -/
theorem regexEmailsOf_fullmatch {e s : String} (h : e ∈ regexEmailsOf s) :
    emailFullmatch e.data = true := by
  obtain ⟨m, rfl, hm⟩ := mem_regexEmailsOf h
  exact emailFullmatch_map_toLower hm

theorem mem_addAll {l : List String} {s : Finset String} {e : String} :
    e ∈ addAll l s ↔ e ∈ l ∨ e ∈ s := by
  induction l generalizing s with
  | nil => simp [addAll]
  | cons x xs ih =>
    show e ∈ addAll xs (insert x s) ↔ _
    rw [ih]
    simp only [List.mem_cons, Finset.mem_insert]
    tauto

/-! ### Membership structure of the extractor output -/

theorem mem_anchorPass {hrefs : List String} {acc : Finset String} {e : String}
    (h : e ∈ (anchorPass hrefs acc).1) :
    e ∈ acc ∨ ∃ href ∈ hrefs, mailtoEmailOf href = some e := by
  induction hrefs generalizing acc with
  | nil =>
    exact Or.inl h
  | cons href rest ih =>
    rw [anchorPass] at h
    by_cases hs : strStartsWith (pyLower href) "mailto:"
    · rw [if_pos hs] at h
      rcases hsp : splitOnce href "mailto:" with _ | ⟨pre, tail⟩
      · simp only [hsp] at h
        exact Or.inl h
      · simp only [hsp] at h
        by_cases he : pyLower (pyStrip (takeBefore tail "?")) = ""
        · rw [if_pos he] at h
          rcases ih h with h2 | ⟨x, hx, hm⟩
          · exact Or.inl h2
          · exact Or.inr ⟨x, List.mem_cons_of_mem _ hx, hm⟩
        · rw [if_neg he] at h
          rcases ih h with h2 | ⟨x, hx, hm⟩
          · rcases Finset.mem_insert.1 h2 with h3 | h3
            · refine Or.inr ⟨href, List.mem_cons_self _ _, ?_⟩
              rw [mailtoEmailOf, if_pos hs]
              simp only [hsp]
              rw [if_neg he, h3]
            · exact Or.inl h3
          · exact Or.inr ⟨x, List.mem_cons_of_mem _ hx, hm⟩
    · rw [if_neg hs] at h
      rcases ih h with h2 | ⟨x, hx, hm⟩
      · exact Or.inl h2
      · exact Or.inr ⟨x, List.mem_cons_of_mem _ hx, hm⟩

theorem anchorPass_superset {hrefs : List String} {acc : Finset String} :
    acc ⊆ (anchorPass hrefs acc).1 := by
  induction hrefs generalizing acc with
  | nil => exact fun _ h => h
  | cons href rest ih =>
    intro e he
    rw [anchorPass]
    by_cases hs : strStartsWith (pyLower href) "mailto:"
    · rw [if_pos hs]
      rcases hsp : splitOnce href "mailto:" with _ | ⟨pre, tail⟩
      · simp only [hsp]
        exact he
      · simp only [hsp]
        by_cases hemp : pyLower (pyStrip (takeBefore tail "?")) = ""
        · rw [if_pos hemp]
          exact ih he
        · rw [if_neg hemp]
          exact ih (Finset.mem_insert_of_mem he)
    · rw [if_neg hs]
      exact ih he

/-- A step-closed fold only adds regex-scan outputs. -/
theorem mem_foldl_regex {α : Type} {L : List α} {f : Finset String → α → Finset String}
    {init : Finset String} {e : String}
    (hf : ∀ a x y, y ∈ f a x → y ∈ a ∨ ∃ s, y ∈ regexEmailsOf s)
    (h : e ∈ L.foldl f init) : e ∈ init ∨ ∃ s, e ∈ regexEmailsOf s := by
  induction L generalizing init with
  | nil => exact Or.inl h
  | cons x xs ih =>
    rw [List.foldl_cons] at h
    rcases ih h with h2 | h2
    · exact hf init x e h2
    · exact Or.inr h2

theorem foldl_superset {α : Type} {L : List α} {f : Finset String → α → Finset String}
    {init : Finset String} (hf : ∀ a x, a ⊆ f a x) : init ⊆ L.foldl f init := by
  induction L generalizing init with
  | nil => exact fun _ h => h
  | cons x xs ih =>
    rw [List.foldl_cons]
    exact fun e he => ih (hf init x he)

/-- Everything the extractor returns is lowercase-fixed and is either a full
regex match or the processed target of some mailto anchor of the document. -/
theorem mem_extract_spec {html : String} {parsed : Option HtmlDoc} {e : String}
    (h : e ∈ extract_emails_from_html html parsed) :
    pyLower e = e ∧
      (emailFullmatch e.data = true ∨
        ∃ doc, parsed = some doc ∧ ∃ href ∈ doc.anchorHrefs, mailtoEmailOf href = some e) := by
  have step1 : ∀ (a : Finset String) (s : String) y,
      y ∈ addAll (regexEmailsOf s) a → y ∈ a ∨ ∃ t, y ∈ regexEmailsOf t := by
    intro a s y hy
    rcases mem_addAll.1 hy with h2 | h2
    · exact Or.inr ⟨s, h2⟩
    · exact Or.inl h2
  have key : (∃ s, e ∈ regexEmailsOf s) ∨
      (∃ doc, parsed = some doc ∧ ∃ href ∈ doc.anchorHrefs, mailtoEmailOf href = some e) := by
    by_cases h0 : html = ""
    · rw [extract_emails_from_html, if_pos h0] at h
      exact absurd h (Finset.not_mem_empty e)
    · rcases parsed with _ | doc
      · rw [extract_emails_from_html, if_neg h0] at h
        dsimp only at h
        rcases mem_addAll.1 h with h2 | h2
        · exact Or.inl ⟨html, h2⟩
        · exact absurd h2 (Finset.not_mem_empty e)
      · rw [extract_emails_from_html, if_neg h0] at h
        dsimp only at h
        have anchor_case : ∀ y, y ∈ (anchorPass doc.anchorHrefs
            (addAll (regexEmailsOf html) ∅)).1 →
            (∃ s, y ∈ regexEmailsOf s) ∨
              (∃ href ∈ doc.anchorHrefs, mailtoEmailOf href = some y) := by
          intro y hy
          rcases mem_anchorPass hy with h2 | h2
          · rcases mem_addAll.1 h2 with h3 | h3
            · exact Or.inl ⟨html, h3⟩
            · exact absurd h3 (Finset.not_mem_empty y)
          · exact Or.inr h2
        rcases hap : anchorPass doc.anchorHrefs (addAll (regexEmailsOf html) ∅)
            with ⟨acc, flag⟩
        rw [hap] at h
        have hacc : ∀ y, y ∈ acc →
            (∃ s, y ∈ regexEmailsOf s) ∨
              (∃ href ∈ doc.anchorHrefs, mailtoEmailOf href = some y) := by
          intro y hy
          exact anchor_case y (by rw [hap]; exact hy)
        rcases flag with _ | _
        · dsimp only at h
          have hinp : ∀ (a : Finset String) (tag : InputTag) y,
              y ∈ (let a1 := match tag.value with
                    | some v => if v ≠ "" then addAll (regexEmailsOf v) a else a
                    | none => a
                  match tag.placeholder with
                    | some v => if v ≠ "" then addAll (regexEmailsOf v) a1 else a1
                    | none => a1) → y ∈ a ∨ ∃ t, y ∈ regexEmailsOf t := by
            intro a tag y hy
            dsimp only at hy
            have mid : ∀ (b : Finset String), y ∈ (match tag.placeholder with
                | some v => if v ≠ "" then addAll (regexEmailsOf v) b else b
                | none => b) → y ∈ b ∨ ∃ t, y ∈ regexEmailsOf t := by
              intro b hb
              rcases hpl : tag.placeholder with _ | v
              · rw [hpl] at hb
                dsimp only at hb
                exact Or.inl hb
              · rw [hpl] at hb
                dsimp only at hb
                by_cases hv : v = ""
                · rw [if_neg (by simp [hv])] at hb
                  exact Or.inl hb
                · rw [if_pos (by simp [hv])] at hb
                  exact step1 b v y hb
            rcases hval : tag.value with _ | v
            · rw [hval] at hy
              dsimp only at hy
              exact mid a hy
            · rw [hval] at hy
              dsimp only at hy
              by_cases hv : v = ""
              · rw [if_neg (by simp [hv])] at hy
                exact mid a hy
              · rw [if_pos (by simp [hv])] at hy
                rcases mid _ hy with h2 | h2
                · exact step1 a v y h2
                · exact Or.inr h2
          have hscript : ∀ (a : Finset String) (so : Option String) y,
              y ∈ (match so with
                | some s => if s ≠ "" then addAll (regexEmailsOf s) a else a
                | none => a) → y ∈ a ∨ ∃ t, y ∈ regexEmailsOf t := by
            intro a so y hy
            rcases so with _ | s
            · exact Or.inl hy
            · dsimp only at hy
              by_cases hs : s = ""
              · rw [if_neg (by simp [hs])] at hy
                exact Or.inl hy
              · rw [if_pos (by simp [hs])] at hy
                exact step1 a s y hy
          rcases mem_foldl_regex (fun a x y hy => step1 a x y hy) h with h2 | h2
          rotate_left
          · exact Or.inl h2
          rcases mem_foldl_regex (fun a x y hy => hscript a x y hy) h2 with h3 | h3
          rotate_left
          · exact Or.inl h3
          rcases mem_foldl_regex (fun a x y hy => step1 a x y hy) h3 with h4 | h4
          rotate_left
          · exact Or.inl h4
          rcases mem_foldl_regex (fun a x y hy => hinp a x y hy) h4 with h5 | h5
          rotate_left
          · exact Or.inl h5
          rcases mem_foldl_regex (fun a x y hy => step1 a x y hy) h5 with h6 | h6
          rotate_left
          · exact Or.inl h6
          rcases hacc e h6 with h7 | h7
          · exact Or.inl h7
          · exact Or.inr ⟨doc, rfl, h7⟩
        · dsimp only at h
          rcases hacc e h with h2 | h2
          · exact Or.inl h2
          · exact Or.inr ⟨doc, rfl, h2⟩
  rcases key with ⟨s, hs⟩ | hm
  · exact ⟨regexEmailsOf_lowerFixed hs, Or.inl (regexEmailsOf_fullmatch hs)⟩
  · obtain ⟨doc, hdoc, href, hhref, heq⟩ := hm
    refine ⟨?_, Or.inr ⟨doc, hdoc, href, hhref, heq⟩⟩
    rw [mailtoEmailOf] at heq
    by_cases hs : strStartsWith (pyLower href) "mailto:"
    · rw [if_pos hs] at heq
      rcases hsp : splitOnce href "mailto:" with _ | ⟨pre, tail⟩
      · rw [hsp] at heq
        exact absurd heq (by simp)
      · simp only [hsp] at heq
        by_cases hemp : pyLower (pyStrip (takeBefore tail "?")) = ""
        · rw [if_pos hemp] at heq
          exact absurd heq (by simp)
        · rw [if_neg hemp] at heq
          have he2 : e = pyLower (pyStrip (takeBefore tail "?")) := by
            injection heq.symm
          rw [he2]
          exact pyLower_idem _
    · rw [if_neg hs] at heq
      exact absurd heq (by simp)

theorem subset_addAll {l : List String} {s : Finset String} : s ⊆ addAll l s :=
  fun _ he => mem_addAll.2 (Or.inr he)

/-- Pointwise superset fact for the input-tag fold step. -/
theorem inp_step_superset (a : Finset String) (tag : InputTag) :
    a ⊆ (let a1 := match tag.value with
          | some v => if v ≠ "" then addAll (regexEmailsOf v) a else a
          | none => a
        match tag.placeholder with
          | some v => if v ≠ "" then addAll (regexEmailsOf v) a1 else a1
          | none => a1) := by
  intro e he
  dsimp only
  have h1 : e ∈ (match tag.value with
      | some v => if v ≠ "" then addAll (regexEmailsOf v) a else a
      | none => a) := by
    rcases tag.value with _ | v
    · exact he
    · dsimp only
      split
      · exact subset_addAll he
      · exact he
  rcases tag.placeholder with _ | v
  · exact h1
  · dsimp only
    split
    · exact subset_addAll h1
    · exact h1

/-- Pointwise superset fact for the script-string fold step. -/
theorem script_step_superset (a : Finset String) (so : Option String) :
    a ⊆ (match so with
      | some s => if s ≠ "" then addAll (regexEmailsOf s) a else a
      | none => a) := by
  intro e he
  rcases so with _ | s
  · exact he
  · dsimp only
    split
    · exact subset_addAll he
    · exact he

/-- The regex-scan set is contained in the extractor output. -/
theorem extract_contains_regex {html : String} {parsed : Option HtmlDoc} {e : String}
    (he : e ∈ regexEmailsOf html) : e ∈ extract_emails_from_html html parsed := by
  rw [extract_emails_from_html]
  by_cases h0 : html = ""
  · rw [h0] at he
    rw [show regexEmailsOf "" = [] from rfl] at he
    exact absurd he (List.not_mem_nil e)
  · rw [if_neg h0]
    have hbase : e ∈ addAll (regexEmailsOf html) ∅ := mem_addAll.2 (Or.inl he)
    rcases parsed with _ | doc
    · exact hbase
    · dsimp only
      rcases hap : anchorPass doc.anchorHrefs (addAll (regexEmailsOf html) ∅)
        with ⟨acc, flag⟩
      have hacc : e ∈ acc := by
        have h2 : e ∈ (anchorPass doc.anchorHrefs (addAll (regexEmailsOf html) ∅)).1 :=
          anchorPass_superset hbase
        rw [hap] at h2
        exact h2
      rcases flag with _ | _
      · dsimp only
        refine foldl_superset (fun a x => subset_addAll)
          (foldl_superset (fun a x => script_step_superset a x)
            (foldl_superset (fun a x => subset_addAll)
              (foldl_superset (fun a x => inp_step_superset a x)
                (foldl_superset (fun a x => subset_addAll) hacc))))
      · exact hacc

/-- A failed parse returns exactly the whole-document regex-scan set. -/
theorem extract_parse_failure (html : String) :
    extract_emails_from_html html none = addAll (regexEmailsOf html) ∅ := by
  rw [extract_emails_from_html]
  by_cases h0 : html = ""
  · rw [if_pos h0, h0]
    rfl
  · rw [if_neg h0]

/-! ### URL parsing (urllib.parse urlsplit and urlunsplit, as crawl_site uses
them through urlparse, _replace(fragment="") and geturl; the params component
is folded into the path, which geturl recombines losslessly) -/

structure UrlParts where
  scheme : String
  netloc : String
  path : String
  query : String
  fragment : String
deriving DecidableEq

/-- Characters allowed in a scheme after the first letter. -/
def isSchemeChar (c : Char) : Bool := c.isAlphanum || c = '+' || c = '-' || c = '.'

/-- A character that terminates the netloc component. -/
def isNetlocEnd (c : Char) : Bool := c = '/' || c = '?' || c = '#'

/-- A character that urlsplit does not remove up front. -/
def notUnsafe (c : Char) : Bool := !(c = '\t' || c = '\r' || c = '\n')

/-- urlsplit removes tab, carriage return and newline characters first. -/
def stripUnsafe (l : List Char) : List Char := l.filter notUnsafe

/-- The scheme step of urlsplit: when a colon occurs at a positive position,
the first character is a letter and everything before the colon is a scheme
character, the lowercased scheme is split off; otherwise the scheme is empty. -/
def schemeSplit (l : List Char) : String × List Char :=
  match splitAtChar ':' l with
  | none => ("", l)
  | some (pre, post) =>
    match pre with
    | [] => ("", l)
    | c :: _ =>
      if c.isAlpha && pre.all isSchemeChar then (pyLower ⟨pre⟩, post)
      else ("", l)

/-- The fragment step of urlsplit: split at the first number sign, if any. -/
def fragSplit (l : List Char) : List Char × List Char :=
  match splitAtChar '#' l with
  | some p => p
  | none => (l, [])

/-- The query step of urlsplit: split at the first question mark, if any. -/
def querySplit (l : List Char) : List Char × List Char :=
  match splitAtChar '?' l with
  | some p => p
  | none => (l, [])

/-- urlsplit. Returns none when the netloc has mismatched square brackets
(urlsplit raises ValueError there). -/
def pyUrlparse (s : String) : Option UrlParts :=
  let l := stripUnsafe s.data
  let sp := schemeSplit l
  let nl :=
    if ['/', '/'].isPrefixOf sp.2 then
      ((sp.2.drop 2).takeWhile (fun c => !isNetlocEnd c),
       (sp.2.drop 2).dropWhile (fun c => !isNetlocEnd c))
    else ([], sp.2)
  if (nl.1.contains '[' && !nl.1.contains ']') ||
     (nl.1.contains ']' && !nl.1.contains '[') then none
  else
    let fr := fragSplit nl.2
    let pq := querySplit fr.1
    some { scheme := sp.1, netloc := ⟨nl.1⟩, path := ⟨pq.1⟩,
           query := ⟨pq.2⟩, fragment := ⟨fr.2⟩ }

/-- p._replace(fragment="").geturl(): urlunsplit with an empty fragment. -/
def defragUrl (p : UrlParts) : String :=
  let url := p.path
  let url :=
    if p.netloc ≠ "" || strStartsWith url "//" then
      "//" ++ p.netloc ++ (if url ≠ "" && !(strStartsWith url "/") then "/" ++ url else url)
    else url
  let url := if p.scheme ≠ "" then p.scheme ++ ":" ++ url else url
  if p.query ≠ "" then url ++ "?" ++ p.query else url

/-- normalize_url (src/app.py lines 71-80). -/
def normalize_url (url : String) : Option String :=
  if url = "" then none
  else
    let u := pyStrip url
    if u = "" then none
    else if !(strStartsWith (pyLower u) "http://" || strStartsWith (pyLower u) "https://") then
      some ("https://" ++ u)
    else some u

/-! ### Site crawler (src/app.py lines 196-295) -/

/-- The outcome of session.get on one URL: a body (with its BeautifulSoup
parse, or none when that parse raises), a timeout, a connection error, or
any other exception. -/
inductive FetchOutcome where
  | ok (html : String) (parsed : Option HtmlDoc)
  | timeout
  | connError
  | fail (msg : String)

/-- The external collaborators of a crawl: the HTTP session and urljoin. -/
structure CrawlEnv where
  fetch : String → FetchOutcome
  join : String → String → String

/-- The status strings success, no_emails and error of the result dict. -/
inductive CrawlStatus where
  | success
  | no_emails
  | error
deriving DecidableEq

/-- The state of the crawl loop. fetched and retrieved are trace fields that
do not influence the rest of the state: fetched lists the dequeued URLs in
order (each one a session.get attempt), retrieved the sublist whose fetch
returned a body. -/
structure LoopSt where
  toVisit : List (String × Nat)
  seen : List String
  found : Finset String
  pages : Nat
  errMsg : Option String
  fetched : List String
  retrieved : List String

/-- The link-discovery pass over one page (src/app.py lines 245-266): strip
each anchor href, skip javascript/mailto/tel/fragment links, join with the
current page URL, keep only http(s) links whose host is the seed host, strip
the fragment for the canonical form, and enqueue unseen results (marking them
seen immediately). A urlparse ValueError aborts the remaining anchors of this
page (the surrounding try/except pass). -/
def addLinks (env : CrawlEnv) (baseDomain current : String) (depth : Nat) :
    List String → List String → List (String × Nat) → List String × List (String × Nat)
  | [], seen, tv => (seen, tv)
  | href :: rest, seen, tv =>
    let h := pyStrip href
    if strStartsWith h "javascript:" || strStartsWith h "mailto:" ||
       strStartsWith h "tel:" || strStartsWith h "#" then
      addLinks env baseDomain current depth rest seen tv
    else
      match pyUrlparse (env.join current h) with
      | none => (seen, tv)
      | some p =>
        if !(p.scheme = "http" || p.scheme = "https") then
          addLinks env baseDomain current depth rest seen tv
        else if p.netloc ≠ baseDomain then
          addLinks env baseDomain current depth rest seen tv
        else
          let norm := defragUrl p
          if seen.contains norm then
            addLinks env baseDomain current depth rest seen tv
          else
            addLinks env baseDomain current depth rest (norm :: seen) (tv ++ [(norm, depth + 1)])

/-- The while loop of crawl_site, one iteration per dequeued page. The fuel
argument only bounds the recursion: crawl_site passes fuel = max_pages, and
since pages starts at zero and grows by one per iteration, the guard
pages < max_pages always stops the loop no later than the fuel does. -/
def crawlLoop (env : CrawlEnv) (baseDomain : String) (crawlDepth maxPages : Nat) :
    Nat → LoopSt → LoopSt
  | 0, st => st
  | fuel + 1, st =>
    match st.toVisit with
    | [] => st
    | (current, depth) :: rest =>
      if maxPages ≤ st.pages then st
      else
        let pages := st.pages + 1
        let fetched := st.fetched ++ [current]
        match env.fetch current with
        | .timeout =>
          crawlLoop env baseDomain crawlDepth maxPages fuel
            { st with
              toVisit := rest
              pages := pages
              fetched := fetched
              errMsg := some ("Timeout on page " ++ toString pages) }
        | .connError =>
          crawlLoop env baseDomain crawlDepth maxPages fuel
            { st with
              toVisit := rest
              pages := pages
              fetched := fetched
              errMsg := some ("Connection error on page " ++ toString pages) }
        | .fail m =>
          crawlLoop env baseDomain crawlDepth maxPages fuel
            { st with
              toVisit := rest
              pages := pages
              fetched := fetched
              errMsg := some ("Error on page " ++ toString pages ++ ": " ++ ⟨m.data.take 50⟩) }
        | .ok html parsed =>
          let found := st.found ∪ extract_emails_from_html html parsed
          let st2 :=
            if depth < crawlDepth then
              match parsed with
              | some doc => addLinks env baseDomain current depth doc.anchorHrefs st.seen rest
              | none => (st.seen, rest)
            else (st.seen, rest)
          crawlLoop env baseDomain crawlDepth maxPages fuel
            { toVisit := st2.2
              seen := st2.1
              found := found
              pages := pages
              errMsg := st.errMsg
              fetched := fetched
              retrieved := st.retrieved ++ [current] }

/-- The result dict of crawl_site, plus the two trace fields of the loop. -/
structure CrawlRes where
  url : String
  status : CrawlStatus
  emails : Finset String
  pages_crawled : Nat
  error_message : Option String
  fetched : List String
  retrieved : List String

/-- crawl_site (src/app.py lines 196-295). The delay parameter only sleeps
and is omitted. A urlparse ValueError on the seed is caught by the outer
except (status error); an empty netloc is the Invalid URL format branch. -/
def crawl_site (env : CrawlEnv) (url : String) (crawlDepth maxPages : Nat) : CrawlRes :=
  match pyUrlparse url with
  | none =>
    { url := url
      status := .error
      emails := ∅
      pages_crawled := 0
      error_message := some "Invalid IPv6 URL"
      fetched := []
      retrieved := [] }
  | some p =>
    if p.netloc = "" then
      { url := url
        status := .error
        emails := ∅
        pages_crawled := 0
        error_message := some "Invalid URL format"
        fetched := []
        retrieved := [] }
    else
      let st := crawlLoop env p.netloc crawlDepth maxPages maxPages
        { toVisit := [(url, 0)]
          seen := [url]
          found := ∅
          pages := 0
          errMsg := none
          fetched := []
          retrieved := [] }
      { url := url
        status := if st.found = ∅ then .no_emails else .success
        emails := st.found
        pages_crawled := st.pages
        error_message :=
          if st.found = ∅ then
            (match st.errMsg with
             | none => some "No emails found"
             | some m => some m)
          else st.errMsg
        fetched := st.fetched
        retrieved := st.retrieved }

/-! ### Helper facts about the splitting primitives -/

theorem str_data_append (a b : String) : (a ++ b).data = a.data ++ b.data := by
  cases a
  cases b
  rfl

theorem string_mk_data (s : String) : (⟨s.data⟩ : String) = s := by
  cases s
  rfl

theorem splitAtChar_eq_none {c : Char} {l : List Char} (h : c ∉ l) :
    splitAtChar c l = none := by
  induction l with
  | nil => rfl
  | cons x xs ih =>
    rw [splitAtChar]
    rw [if_neg (by intro he; exact h (he ▸ List.mem_cons_self x xs))]
    rw [ih (fun hm => h (List.mem_cons_of_mem x hm))]
    rfl

theorem splitAtChar_append {c : Char} {a b : List Char} (h : c ∉ a) :
    splitAtChar c (a ++ c :: b) = some (a, b) := by
  induction a with
  | nil =>
    rw [List.nil_append, splitAtChar, if_pos rfl]
  | cons x xs ih =>
    rw [List.cons_append, splitAtChar]
    rw [if_neg (by intro he; exact h (he ▸ List.mem_cons_self x xs))]
    rw [ih (fun hm => h (List.mem_cons_of_mem x hm))]
    rfl

theorem splitAtChar_some {c : Char} {l a b : List Char}
    (h : splitAtChar c l = some (a, b)) : l = a ++ c :: b ∧ c ∉ a := by
  induction l generalizing a b with
  | nil => exact absurd h (by rw [splitAtChar]; simp)
  | cons x xs ih =>
    rw [splitAtChar] at h
    by_cases hx : x = c
    · rw [if_pos hx] at h
      injection h with h2
      injection h2 with h3 h4
      subst hx
      rw [← h3, ← h4]
      exact ⟨rfl, by simp⟩
    · rw [if_neg hx] at h
      rcases hs : splitAtChar c xs with _ | ⟨a2, b2⟩
      · rw [hs] at h
        exact absurd h (by simp)
      · rw [hs] at h
        simp only [Option.map] at h
        injection h with h2
        injection h2 with h3 h4
        obtain ⟨hl, hnm⟩ := ih hs
        constructor
        · rw [← h3, ← h4, hl]
          rfl
        · rw [← h3]
          intro hm
          rcases List.mem_cons.1 hm with h5 | h5
          · exact hx h5.symm
          · exact hnm h5

theorem takeWhile_append_all {p : Char → Bool} {a b : List Char}
    (ha : ∀ c ∈ a, p c = true)
    (hb : ∀ x xs, b = x :: xs → p x = false) :
    (a ++ b).takeWhile p = a ∧ (a ++ b).dropWhile p = b := by
  induction a with
  | nil =>
    rcases b with _ | ⟨x, xs⟩
    · exact ⟨rfl, rfl⟩
    · rw [List.nil_append, List.takeWhile_cons, List.dropWhile_cons,
        hb x xs rfl]
      exact ⟨rfl, rfl⟩
  | cons y ys ih =>
    have hy := ha y (List.mem_cons_self y ys)
    obtain ⟨h1, h2⟩ := ih (fun c hc => ha c (List.mem_cons_of_mem y hc))
    rw [List.cons_append, List.takeWhile_cons, List.dropWhile_cons, hy]
    simp only [if_true]
    exact ⟨by rw [h1], by rw [h2]⟩

/-- Structural facts holding of every successful urlsplit result; they make
the defragmented reconstruction reparse to the same scheme and netloc. -/
structure WellParsed (p : UrlParts) : Prop where
  netloc_ok : ∀ c ∈ p.netloc.data, isNetlocEnd c = false
  netloc_clean : ∀ c ∈ p.netloc.data, notUnsafe c = true
  netloc_brackets : ((p.netloc.data.contains '[' && !p.netloc.data.contains ']') ||
      (p.netloc.data.contains ']' && !p.netloc.data.contains '[')) = false
  path_no_hash : '#' ∉ p.path.data
  path_no_query : '?' ∉ p.path.data
  path_clean : ∀ c ∈ p.path.data, notUnsafe c = true
  query_no_hash : '#' ∉ p.query.data
  query_clean : ∀ c ∈ p.query.data, notUnsafe c = true

theorem splitAtChar_none {c : Char} {l : List Char} (h : splitAtChar c l = none) :
    c ∉ l := by
  induction l with
  | nil => simp
  | cons x xs ih =>
    rw [splitAtChar] at h
    by_cases hx : x = c
    · rw [if_pos hx] at h
      exact absurd h (by simp)
    · rw [if_neg hx] at h
      intro hm
      rcases List.mem_cons.1 hm with h2 | h2
      · exact hx h2.symm
      · rcases hs : splitAtChar c xs with _ | pr
        · exact ih hs h2
        · rw [hs] at h
          exact absurd h (by simp [Option.map])

theorem splitPair_fst_sub {c : Char} (l : List Char) :
    ∀ x ∈ (match splitAtChar c l with | some p => p | none => (l, [])).1, x ∈ l := by
  rcases hs : splitAtChar c l with _ | ⟨a, b⟩
  · intro x hx
    exact hx
  · obtain ⟨hl, _⟩ := splitAtChar_some hs
    intro x hx
    rw [hl]
    exact List.mem_append_left _ hx

theorem splitPair_snd_sub {c : Char} (l : List Char) :
    ∀ x ∈ (match splitAtChar c l with | some p => p | none => (l, [])).2, x ∈ l := by
  rcases hs : splitAtChar c l with _ | ⟨a, b⟩
  · intro x hx
    exact absurd hx (List.not_mem_nil x)
  · obtain ⟨hl, _⟩ := splitAtChar_some hs
    intro x hx
    rw [hl]
    exact List.mem_append_right _ (List.mem_cons_of_mem _ hx)

theorem splitPair_fst_no {c : Char} (l : List Char) :
    c ∉ (match splitAtChar c l with | some p => p | none => (l, [])).1 := by
  rcases hs : splitAtChar c l with _ | ⟨a, b⟩
  · exact splitAtChar_none hs
  · exact (splitAtChar_some hs).2

theorem fragSplit_fst_sub (l : List Char) : ∀ x ∈ (fragSplit l).1, x ∈ l :=
  splitPair_fst_sub l

theorem fragSplit_fst_no (l : List Char) : '#' ∉ (fragSplit l).1 :=
  splitPair_fst_no l

theorem querySplit_fst_sub (l : List Char) : ∀ x ∈ (querySplit l).1, x ∈ l :=
  splitPair_fst_sub l

theorem querySplit_fst_no (l : List Char) : '?' ∉ (querySplit l).1 :=
  splitPair_fst_no l

theorem querySplit_snd_sub (l : List Char) : ∀ x ∈ (querySplit l).2, x ∈ l :=
  splitPair_snd_sub l

theorem schemeSplit_sub {l : List Char} : ∀ c ∈ (schemeSplit l).2, c ∈ l := by
  intro c hc
  rw [schemeSplit] at hc
  rcases hs : splitAtChar ':' l with _ | ⟨pre, post⟩
  · rw [hs] at hc
    exact hc
  · rw [hs] at hc
    obtain ⟨hl, _⟩ := splitAtChar_some hs
    rcases pre with _ | ⟨x, xs⟩
    · exact hc
    · dsimp only at hc
      by_cases hif : (x.isAlpha && (x :: xs).all isSchemeChar) = true
      · rw [if_pos hif] at hc
        rw [hl]
        exact List.mem_append_right _ (List.mem_cons_of_mem _ hc)
      · rw [if_neg hif] at hc
        exact hc

/-- The common tail of a successful urlsplit is well parsed once the netloc
facts are known. -/
theorem wellParsed_of_parts (nl l2 : List Char) (sch : String)
    (h1 : ∀ c ∈ nl, isNetlocEnd c = false)
    (h2 : ∀ c ∈ nl, notUnsafe c = true)
    (h3 : ∀ c ∈ l2, notUnsafe c = true)
    (hb : ((nl.contains '[' && !nl.contains ']') ||
      (nl.contains ']' && !nl.contains '[')) = false) :
    WellParsed { scheme := sch, netloc := ⟨nl⟩,
                 path := ⟨(querySplit (fragSplit l2).1).1⟩,
                 query := ⟨(querySplit (fragSplit l2).1).2⟩,
                 fragment := ⟨(fragSplit l2).2⟩ } := by
  refine ⟨h1, h2, hb, ?_, ?_, ?_, ?_, ?_⟩
  · exact fun hm => fragSplit_fst_no l2 (querySplit_fst_sub _ _ hm)
  · exact querySplit_fst_no _
  · exact fun c hc => h3 c (fragSplit_fst_sub l2 c (querySplit_fst_sub _ c hc))
  · exact fun hm => fragSplit_fst_no l2 (querySplit_snd_sub _ _ hm)
  · exact fun c hc => h3 c (fragSplit_fst_sub l2 c (querySplit_snd_sub _ c hc))

/-- Every successful urlsplit result is well parsed. -/
theorem pyUrlparse_wellParsed {s : String} {p : UrlParts} (h : pyUrlparse s = some p) :
    WellParsed p := by
  have hclean : ∀ c ∈ stripUnsafe s.data, notUnsafe c = true := by
    intro c hc
    exact (List.mem_filter.1 hc).2
  have hrest : ∀ c ∈ (schemeSplit (stripUnsafe s.data)).2, notUnsafe c = true :=
    fun c hc => hclean c (schemeSplit_sub c hc)
  rw [pyUrlparse] at h
  dsimp only at h
  by_cases hpre : (['/', '/'].isPrefixOf (schemeSplit (stripUnsafe s.data)).2) = true
  · rw [if_pos hpre] at h
    dsimp only at h
    split at h
    · exact absurd h (by simp)
    · next hbr =>
      injection h with h2
      subst h2
      refine wellParsed_of_parts _ _ _ ?_ ?_ ?_ ?_
      · intro c hc
        have := List.mem_takeWhile_imp hc
        simpa using this
      · intro c hc
        refine hrest c ?_
        exact List.drop_subset 2 _ ((List.takeWhile_prefix _).sublist.subset hc)
      · intro c hc
        refine hrest c ?_
        exact List.drop_subset 2 _ ((List.dropWhile_sublist _).subset hc)
      · exact Bool.eq_false_iff.2 (fun hx => hbr hx)
  · rw [if_neg hpre] at h
    dsimp only at h
    split at h
    · exact absurd h (by simp)
    · next hbr =>
      injection h with h2
      subst h2
      refine wellParsed_of_parts _ _ _ ?_ ?_ ?_ ?_
      · intro c hc
        exact absurd hc (List.not_mem_nil c)
      · intro c hc
        exact absurd hc (List.not_mem_nil c)
      · exact hrest
      · rfl

theorem drop_two_cons (a b : Char) (l : List Char) : (a :: b :: l).drop 2 = l := rfl

theorem isPrefixOf_slash2 (xs : List Char) :
    ['/', '/'].isPrefixOf ('/' :: '/' :: xs) = true := by
  simp [List.isPrefixOf]

/-- The reconstruction step of schemeSplit on a well-formed scheme prefix. -/
theorem schemeSplit_reconstruct {sch : String} {rest : List Char}
    (h1 : ∃ c cs, sch.data = c :: cs ∧ c.isAlpha = true)
    (h2 : ∀ c ∈ sch.data, isSchemeChar c = true)
    (h3 : ':' ∉ sch.data)
    (h4 : pyLower sch = sch) :
    schemeSplit (sch.data ++ ':' :: rest) = (sch, rest) := by
  rw [schemeSplit, splitAtChar_append h3]
  obtain ⟨c, cs, hsch, hca⟩ := h1
  rw [hsch]
  dsimp only
  rw [if_pos (by
    rw [Bool.and_eq_true]
    refine ⟨hca, ?_⟩
    rw [List.all_eq_true]
    intro x hx
    exact h2 x (by rw [hsch]; exact hx))]
  have hmk : (⟨c :: cs⟩ : String) = sch := by
    rw [← hsch]
  rw [hmk, h4]

/-- A defragmented well-parsed http(s) URL reparses to the same scheme and
netloc. -/
theorem pyUrlparse_defrag {p : UrlParts} (hw : WellParsed p)
    (hs : p.scheme = "http" ∨ p.scheme = "https") (hn : p.netloc ≠ "") :
    ∃ q, pyUrlparse (defragUrl p) = some q ∧ q.scheme = p.scheme ∧ q.netloc = p.netloc := by
  obtain ⟨netloc_ok, netloc_clean, netloc_brackets, path_no_hash, path_no_query,
    path_clean, query_no_hash, query_clean⟩ := hw
  -- the path component as written back by urlunsplit
  set path2 : String :=
    if p.path ≠ "" && !(strStartsWith p.path "/") then "/" ++ p.path else p.path
    with hpath2
  -- the query tail as written back by urlunsplit
  set qpart : List Char := if p.query ≠ "" then '?' :: p.query.data else [] with hqpart
  have hp2_no_hash : '#' ∉ path2.data := by
    rw [hpath2]
    split
    · rw [str_data_append]
      intro hm
      rcases List.mem_append.1 hm with hm | hm
      · exact absurd hm (by decide)
      · exact path_no_hash hm
    · exact path_no_hash
  have hp2_no_q : '?' ∉ path2.data := by
    rw [hpath2]
    split
    · rw [str_data_append]
      intro hm
      rcases List.mem_append.1 hm with hm | hm
      · exact absurd hm (by decide)
      · exact path_no_query hm
    · exact path_no_query
  have hp2_clean : ∀ c ∈ path2.data, notUnsafe c = true := by
    rw [hpath2]
    split
    · intro c hc
      rw [str_data_append] at hc
      rcases List.mem_append.1 hc with hc | hc
      · have : c = '/' := by simpa using hc
        rw [this]
        decide
      · exact path_clean c hc
    · exact path_clean
  have hp2_head : path2.data = [] ∨ ∃ xs, path2.data = '/' :: xs := by
    rw [hpath2]
    split
    · next hcond =>
      refine Or.inr ⟨p.path.data, ?_⟩
      rw [str_data_append]
      rfl
    · next hcond =>
      by_cases hp : p.path = ""
      · rw [hp]
        exact Or.inl rfl
      · have hst : strStartsWith p.path "/" = true := by
          rcases hb : strStartsWith p.path "/" with _ | _
          · exact absurd (by simp [hp, hb]) hcond
          · rfl
        rw [strStartsWith] at hst
        obtain ⟨t, ht⟩ := List.isPrefixOf_iff_prefix.1 hst
        exact Or.inr ⟨t, by rw [← ht]; rfl⟩
  have hqpart_clean : ∀ c ∈ qpart, notUnsafe c = true := by
    rw [hqpart]
    split
    · intro c hc
      rcases List.mem_cons.1 hc with hc | hc
      · rw [hc]
        decide
      · exact query_clean c hc
    · intro c hc
      exact absurd hc (List.not_mem_nil c)
  have hqpart_no_hash : '#' ∉ qpart := by
    rw [hqpart]
    split
    · intro hm
      rcases List.mem_cons.1 hm with hm | hm
      · exact absurd hm (by decide)
      · exact query_no_hash hm
    · exact List.not_mem_nil _
  have hscheme_ne : p.scheme ≠ "" := by
    rcases hs with h | h <;> rw [h] <;> decide
  have hscheme_clean : ∀ c ∈ p.scheme.data, notUnsafe c = true := by
    rcases hs with h | h <;> rw [h] <;> decide
  have hscheme_chars : ∀ c ∈ p.scheme.data, isSchemeChar c = true := by
    rcases hs with h | h <;> rw [h] <;> decide
  have hscheme_head : ∃ c cs, p.scheme.data = c :: cs ∧ c.isAlpha = true := by
    rcases hs with h | h <;> rw [h]
    · exact ⟨'h', ['t', 't', 'p'], rfl, by decide⟩
    · exact ⟨'h', ['t', 't', 'p', 's'], rfl, by decide⟩
  have hscheme_colon : ':' ∉ p.scheme.data := by
    rcases hs with h | h <;> rw [h] <;> decide
  have hscheme_lower : pyLower p.scheme = p.scheme := by
    rcases hs with h | h <;> rw [h] <;> decide
  set rest2 : List Char := p.netloc.data ++ (path2.data ++ qpart) with hrest2
  set tdata : List Char := p.scheme.data ++ ':' :: '/' :: '/' :: rest2 with htdata
  have ht : (defragUrl p).data = tdata := by
    by_cases hq : p.query = ""
    · have hqp : qpart = [] := by
        rw [hqpart, if_neg (by simp [hq])]
      simp only [defragUrl]
      rw [if_neg (show ¬(p.query ≠ "") by simp [hq])]
      rw [if_pos hscheme_ne]
      rw [if_pos (show (decide (p.netloc ≠ "") || strStartsWith p.path "//") = true
        by simp [hn])]
      rw [← hpath2, htdata, hrest2, hqp]
      simp only [str_data_append, List.append_assoc, List.cons_append,
        List.nil_append, List.append_nil,
        show (":" : String).data = [':'] from rfl,
        show ("//" : String).data = ['/', '/'] from rfl]
    · have hqp : qpart = '?' :: p.query.data := by
        rw [hqpart, if_pos (by simp [hq])]
      simp only [defragUrl]
      rw [if_pos (show p.query ≠ "" by simp [hq])]
      rw [if_pos hscheme_ne]
      rw [if_pos (show (decide (p.netloc ≠ "") || strStartsWith p.path "//") = true
        by simp [hn])]
      rw [← hpath2, htdata, hrest2, hqp]
      simp only [str_data_append, List.append_assoc, List.cons_append,
        List.nil_append, List.append_nil,
        show (":" : String).data = [':'] from rfl,
        show ("//" : String).data = ['/', '/'] from rfl,
        show ("?" : String).data = ['?'] from rfl]
  have hstrip : stripUnsafe tdata = tdata := by
    rw [stripUnsafe, List.filter_eq_self]
    intro c hc
    rw [htdata] at hc
    rcases List.mem_append.1 hc with hc | hc
    · exact hscheme_clean c hc
    · rcases List.mem_cons.1 hc with hc | hc
      · rw [hc]; decide
      · rcases List.mem_cons.1 hc with hc | hc
        · rw [hc]; decide
        · rcases List.mem_cons.1 hc with hc | hc
          · rw [hc]; decide
          · rw [hrest2] at hc
            rcases List.mem_append.1 hc with hc | hc
            · exact netloc_clean c hc
            · rcases List.mem_append.1 hc with hc | hc
              · exact hp2_clean c hc
              · exact hqpart_clean c hc
  have hnltake : (rest2.takeWhile (fun c => !isNetlocEnd c)) = p.netloc.data ∧
      (rest2.dropWhile (fun c => !isNetlocEnd c)) = path2.data ++ qpart := by
    rw [hrest2]
    refine takeWhile_append_all ?_ ?_
    · intro c hc
      rw [Bool.not_eq_true']
      simpa using netloc_ok c hc
    · intro x xs hx
      rcases hp2_head with h2 | ⟨ys, h2⟩
      · rw [h2, List.nil_append] at hx
        rw [hqpart] at hx
        by_cases hq : p.query = ""
        · rw [if_neg (by simp [hq])] at hx
          exact absurd hx (by simp)
        · rw [if_pos (by simp [hq])] at hx
          injection hx with hx1 hx2
          rw [← hx1]
          decide
      · rw [h2, List.cons_append] at hx
        injection hx with hx1 hx2
        rw [← hx1]
        decide
  have hbrfalse : ((p.netloc.data.contains '[' && !p.netloc.data.contains ']') ||
      (p.netloc.data.contains ']' && !p.netloc.data.contains '[')) = false := netloc_brackets
  have hmain : pyUrlparse (defragUrl p) = some
      { scheme := p.scheme
        netloc := ⟨p.netloc.data⟩
        path := ⟨(querySplit (fragSplit (path2.data ++ qpart)).1).1⟩
        query := ⟨(querySplit (fragSplit (path2.data ++ qpart)).1).2⟩
        fragment := ⟨(fragSplit (path2.data ++ qpart)).2⟩ } := by
    rw [pyUrlparse]
    dsimp only
    rw [ht, hstrip, htdata, schemeSplit_reconstruct hscheme_head hscheme_chars
      hscheme_colon hscheme_lower]
    dsimp only
    rw [if_pos (isPrefixOf_slash2 rest2)]
    rw [drop_two_cons]
    rw [hnltake.1, hnltake.2]
    rw [if_neg (show ¬((p.netloc.data.contains '[' && !p.netloc.data.contains ']') ||
        (p.netloc.data.contains ']' && !p.netloc.data.contains '[')) = true by
      simp only [hbrfalse]
      simp)]
  exact ⟨_, hmain, rfl, string_mk_data p.netloc⟩

/-! ### Crawl loop invariants -/

/-- A URL string that parses to an http(s) location on the given host. -/
def GoodUrl (b : String) (u : String) : Prop :=
  ∃ q, pyUrlparse u = some q ∧ (q.scheme = "http" ∨ q.scheme = "https") ∧ q.netloc = b

/-- Every frontier entry the link pass adds is a good URL of the seed host. -/
theorem addLinks_mem {env : CrawlEnv} {b cur : String} {d : Nat} (hb : b ≠ "") :
    ∀ (hrefs seen : List String) (tv : List (String × Nat)) (e : String × Nat),
      e ∈ (addLinks env b cur d hrefs seen tv).2 → e ∈ tv ∨ GoodUrl b e.1 := by
  intro hrefs
  induction hrefs with
  | nil =>
    intro seen tv e he
    exact Or.inl he
  | cons href rest ih =>
    intro seen tv e he
    rw [addLinks] at he
    by_cases hskip : (strStartsWith (pyStrip href) "javascript:" ||
        strStartsWith (pyStrip href) "mailto:" ||
        strStartsWith (pyStrip href) "tel:" ||
        strStartsWith (pyStrip href) "#") = true
    · rw [if_pos hskip] at he
      exact ih seen tv e he
    · rw [if_neg hskip] at he
      rcases hp : pyUrlparse (env.join cur (pyStrip href)) with _ | p
      · rw [hp] at he
        exact Or.inl he
      · rw [hp] at he
        dsimp only at he
        by_cases hsch : (!(p.scheme = "http" || p.scheme = "https")) = true
        · rw [if_pos hsch] at he
          exact ih seen tv e he
        · rw [if_neg hsch] at he
          by_cases hnb : p.netloc ≠ b
          · rw [if_pos hnb] at he
            exact ih seen tv e he
          · rw [if_neg hnb] at he
            by_cases hseen : (seen.contains (defragUrl p)) = true
            · rw [if_pos hseen] at he
              exact ih seen tv e he
            · rw [if_neg hseen] at he
              rcases ih _ _ e he with h2 | h2
              · rcases List.mem_append.1 h2 with h3 | h3
                · exact Or.inl h3
                · have he2 : e = (defragUrl p, d + 1) := by simpa using h3
                  refine Or.inr ?_
                  rw [he2]
                  have hw := pyUrlparse_wellParsed hp
                  have hsch2 : p.scheme = "http" ∨ p.scheme = "https" := by
                    simp only [Bool.not_eq_true', Bool.or_eq_false_iff] at hsch
                    rcases h4 : decide (p.scheme = "http") with _ | _
                    · rcases h5 : decide (p.scheme = "https") with _ | _
                      · exfalso
                        apply hsch
                        simp [h4, h5]
                      · exact Or.inr (of_decide_eq_true h5)
                    · exact Or.inl (of_decide_eq_true h4)
                  have hnb2 : p.netloc = b := by
                    by_contra hx
                    exact hnb hx
                  obtain ⟨q, hq1, hq2, hq3⟩ := pyUrlparse_defrag hw hsch2
                    (by rw [hnb2]; exact hb)
                  refine ⟨q, hq1, ?_, by rw [hq3, hnb2]⟩
                  rw [hq2]
                  exact hsch2
              · exact Or.inr h2

/-- The page counter never exceeds max pages. -/
theorem crawlLoop_pages_le {env : CrawlEnv} {b : String} {d mp : Nat} :
    ∀ (fuel : Nat) (st : LoopSt), st.pages ≤ mp →
      (crawlLoop env b d mp fuel st).pages ≤ mp := by
  intro fuel
  induction fuel with
  | zero =>
    intro st h
    exact h
  | succ fuel ih =>
    intro st h
    rw [crawlLoop]
    rcases htv : st.toVisit with _ | ⟨⟨current, depth⟩, rest⟩
    · exact h
    · dsimp only
      by_cases hpg : mp ≤ st.pages
      · rw [if_pos hpg]
        exact h
      · rw [if_neg hpg]
        have hlt : st.pages + 1 ≤ mp := by omega
        rcases hf : env.fetch current with ⟨html, parsed⟩ | _ | _ | ⟨m⟩
        all_goals dsimp only
        all_goals exact ih _ hlt

/-- The page counter counts exactly the dequeued (fetch-attempted) URLs. -/
theorem crawlLoop_pages_fetched {env : CrawlEnv} {b : String} {d mp : Nat} :
    ∀ (fuel : Nat) (st : LoopSt), st.pages = st.fetched.length →
      (crawlLoop env b d mp fuel st).pages =
        (crawlLoop env b d mp fuel st).fetched.length := by
  intro fuel
  induction fuel with
  | zero =>
    intro st h
    exact h
  | succ fuel ih =>
    intro st h
    rw [crawlLoop]
    rcases htv : st.toVisit with _ | ⟨⟨current, depth⟩, rest⟩
    · exact h
    · dsimp only
      by_cases hpg : mp ≤ st.pages
      · rw [if_pos hpg]
        exact h
      · rw [if_neg hpg]
        have h2 : st.pages + 1 = (st.fetched ++ [current]).length := by
          rw [List.length_append, h]
          rfl
        rcases hf : env.fetch current with ⟨html, parsed⟩ | _ | _ | ⟨m⟩
        all_goals dsimp only
        all_goals exact ih _ h2

/-- No more pages are retrieved than fetch attempts made. -/
theorem crawlLoop_retrieved_le {env : CrawlEnv} {b : String} {d mp : Nat} :
    ∀ (fuel : Nat) (st : LoopSt), st.retrieved.length ≤ st.fetched.length →
      (crawlLoop env b d mp fuel st).retrieved.length ≤
        (crawlLoop env b d mp fuel st).fetched.length := by
  intro fuel
  induction fuel with
  | zero =>
    intro st h
    exact h
  | succ fuel ih =>
    intro st h
    rw [crawlLoop]
    rcases htv : st.toVisit with _ | ⟨⟨current, depth⟩, rest⟩
    · exact h
    · dsimp only
      by_cases hpg : mp ≤ st.pages
      · rw [if_pos hpg]
        exact h
      · rw [if_neg hpg]
        have h2 : st.retrieved.length ≤ (st.fetched ++ [current]).length := by
          rw [List.length_append]
          omega
        have h3 : (st.retrieved ++ [current]).length ≤ (st.fetched ++ [current]).length := by
          rw [List.length_append, List.length_append]
          omega
        rcases hf : env.fetch current with ⟨html, parsed⟩ | _ | _ | ⟨m⟩
        all_goals dsimp only
        · exact ih _ h3
        · exact ih _ h2
        · exact ih _ h2
        · exact ih _ h2

/-- Everything ever dequeued satisfies any property that holds of the initial
frontier and of every good URL of the seed host. -/
theorem crawlLoop_fetched_inv {env : CrawlEnv} {b : String} {d mp : Nat} (hb : b ≠ "")
    (R : String → Prop) (hgood : ∀ u, GoodUrl b u → R u) :
    ∀ (fuel : Nat) (st : LoopSt), (∀ pr ∈ st.toVisit, R pr.1) →
      (∀ u ∈ st.fetched, R u) →
      ∀ u ∈ (crawlLoop env b d mp fuel st).fetched, R u := by
  intro fuel
  induction fuel with
  | zero =>
    intro st h1 h2
    exact h2
  | succ fuel ih =>
    intro st h1 h2
    rw [crawlLoop]
    rcases htv : st.toVisit with _ | ⟨⟨current, depth⟩, rest⟩
    · exact h2
    · dsimp only
      have hcur : R current :=
        h1 (current, depth) (by rw [htv]; exact List.mem_cons_self _ _)
      have hrest : ∀ pr ∈ rest, R pr.1 :=
        fun pr hpr => h1 pr (by rw [htv]; exact List.mem_cons_of_mem _ hpr)
      have h2x : ∀ u ∈ st.fetched ++ [current], R u := by
        intro u hu
        rcases List.mem_append.1 hu with hu | hu
        · exact h2 u hu
        · rw [List.mem_singleton.1 hu]
          exact hcur
      by_cases hpg : mp ≤ st.pages
      · rw [if_pos hpg]
        exact h2
      · rw [if_neg hpg]
        rcases hf : env.fetch current with ⟨html, parsed⟩ | _ | _ | ⟨m⟩
        · dsimp only
          apply ih
          · intro pr hpr
            by_cases hd : depth < d
            · rw [if_pos hd] at hpr
              rcases parsed with _ | doc
              · dsimp only at hpr
                exact hrest pr hpr
              · dsimp only at hpr
                rcases addLinks_mem hb doc.anchorHrefs st.seen rest pr hpr with hx | hx
                · exact hrest pr hx
                · exact hgood pr.1 hx
            · rw [if_neg hd] at hpr
              exact hrest pr hpr
          · exact h2x
        · dsimp only
          exact ih _ hrest h2x
        · dsimp only
          exact ih _ hrest h2x
        · dsimp only
          exact ih _ hrest h2x

/-- A crawl environment where every fetch times out. -/
def timeoutEnv : CrawlEnv :=
  { fetch := fun _ => FetchOutcome.timeout
    join := fun _ h => h }

/-- The single text node BeautifulSoup exposes for a page whose body is just
the string noreply at company dot com. -/
def pageGarbageOnly : HtmlDoc :=
  { anchorHrefs := []
    formActions := []
    inputTags := []
    metaContents := []
    scriptStrings := []
    textNodes := ["noreply@company.com"] }

/-- A crawl environment where the seed page carries exactly one address, and
that address is classifier garbage; every other fetch times out. -/
def garbageOnlyEnv : CrawlEnv :=
  { fetch := fun u =>
      if u = "https://g.com" then FetchOutcome.ok "noreply@company.com" (some pageGarbageOnly)
      else FetchOutcome.timeout
    join := fun _ h => h }

/-- The clean set the handler computes from a raw crawl set (src/app.py lines
404-407): drop classifier garbage, then drop anything containing an excluded
keyword. -/
def cleanSet (raw : Finset String) : Finset String :=
  (raw.filter (fun e => looks_like_garbage e = false)).filter
    (fun e => (EXCLUDED_KEYWORDS.any (fun k => strContains e k)) = false)

/-! ### Orchestration (the extract-button handler, src/app.py lines 352-461).
The handler runs crawls in a bounded thread pool and merges each finished
site into shared accumulators; every crawl owns disjoint state, and the merge
is a set union, so the sequential fold below computes the same accumulators
as any completion order. -/

/-- The per-site entry of all_results (src/app.py lines 409-415); the code
stores the raw and clean sets as sorted lists, recorded here as the sets. -/
structure SiteRow where
  status : CrawlStatus
  raw : Finset String
  clean : Finset String
  pages : Nat
  err : Option String

/-- The run accumulators: all_results, unique_emails, total_pages, failed_urls. -/
structure RunOut where
  rows : List (String × SiteRow)
  unique : Finset String
  totalPages : Nat
  failed : List (String × Option String)

/-- One completed crawl merged into the accumulators (src/app.py lines 399-421). -/
def runStep (env : CrawlEnv) (d N : Nat) (acc : RunOut) (url : String) : RunOut :=
  let r := crawl_site env url d N
  let cleaned := cleanSet r.emails
  { rows := acc.rows ++ [(url,
      { status := r.status
        raw := r.emails
        clean := cleaned
        pages := r.pages_crawled
        err := r.error_message })]
    unique := acc.unique ∪ cleaned
    totalPages := acc.totalPages + r.pages_crawled
    failed := if r.status = CrawlStatus.error then acc.failed ++ [(url, r.error_message)]
      else acc.failed }

/-- The whole extract-button run: normalize the input lines, crawl each
website, merge the results. -/
def runAll (env : CrawlEnv) (lines : List String) (d N : Nat) : RunOut :=
  (lines.filterMap normalize_url).foldl (runStep env d N)
    { rows := []
      unique := ∅
      totalPages := 0
      failed := [] }

/-- Every email the crawl loop accumulates is lowercase-fixed. -/
theorem crawlLoop_found_lower {env : CrawlEnv} {b : String} {d mp : Nat} :
    ∀ (fuel : Nat) (st : LoopSt), (∀ e ∈ st.found, pyLower e = e) →
      ∀ e ∈ (crawlLoop env b d mp fuel st).found, pyLower e = e := by
  intro fuel
  induction fuel with
  | zero =>
    intro st h
    exact h
  | succ fuel ih =>
    intro st h
    rw [crawlLoop]
    rcases htv : st.toVisit with _ | ⟨⟨current, depth⟩, rest⟩
    · exact h
    · dsimp only
      by_cases hpg : mp ≤ st.pages
      · rw [if_pos hpg]
        exact h
      · rw [if_neg hpg]
        rcases hf : env.fetch current with ⟨html, parsed⟩ | _ | _ | ⟨m⟩
        all_goals dsimp only
        · apply ih
          intro e he
          rcases Finset.mem_union.1 he with he | he
          · exact h e he
          · exact (mem_extract_spec he).1
        · exact ih _ h
        · exact ih _ h
        · exact ih _ h

/-- Every email a completed crawl reports is lowercase-fixed. -/
theorem crawl_site_emails_lower (env : CrawlEnv) (url : String) (d N : Nat) :
    ∀ e ∈ (crawl_site env url d N).emails, pyLower e = e := by
  rw [crawl_site]
  rcases hp : pyUrlparse url with _ | p
  · intro e he
    exact absurd he (Finset.not_mem_empty e)
  · dsimp only
    by_cases hn : p.netloc = ""
    · rw [if_pos hn]
      intro e he
      exact absurd he (Finset.not_mem_empty e)
    · rw [if_neg hn]
      exact crawlLoop_found_lower N _ (fun e he => absurd he (Finset.not_mem_empty e))

/-- The clean set is part of the raw set. -/
theorem cleanSet_subset (raw : Finset String) : cleanSet raw ⊆ raw :=
  fun e he => Finset.filter_subset _ _ ((Finset.filter_subset _ _) he)

/-- The fold invariant of the run accumulators: unique_emails is the union of
the clean columns of all_results, and every member is lowercase-fixed. -/
theorem runFold_invariant (env : CrawlEnv) (d N : Nat) :
    ∀ (urls : List String) (acc : RunOut),
      acc.unique = acc.rows.foldl (fun a r => a ∪ r.2.clean) ∅ →
      (∀ e ∈ acc.unique, pyLower e = e) →
      (urls.foldl (runStep env d N) acc).unique
          = (urls.foldl (runStep env d N) acc).rows.foldl (fun a r => a ∪ r.2.clean) ∅ ∧
        ∀ e ∈ (urls.foldl (runStep env d N) acc).unique, pyLower e = e := by
  intro urls
  induction urls with
  | nil =>
    intro acc h1 h2
    exact ⟨h1, h2⟩
  | cons url rest ih =>
    intro acc h1 h2
    rw [List.foldl_cons]
    apply ih
    · simp only [runStep]
      rw [List.foldl_append, List.foldl_cons, List.foldl_nil, ← h1]
    · intro e he
      rcases Finset.mem_union.1 he with he | he
      · exact h2 e he
      · exact crawl_site_emails_lower env url d N e (cleanSet_subset _ he)

/-! ### Verification engine.

Modelled from the spec: the variant in src/ has no verification subsystem
(its module docstring says No verification, for maximum speed), so the
engine of spec section 4.5 is modelled from the spec text. Missing from
src/: verify_mx, the SMTP RCPT probe and the status mapping. DNS and SMTP
are external collaborators supplied as environments; the SMTP probe also
returns how many SMTP connections it opened. -/

/-- Modelled from the spec: the verification status set. -/
inductive VerifyStatus where
  | Skipped
  | Valid
  | Invalid
  | Unknown
  | DNSMissing
deriving DecidableEq

/-- Modelled from the spec: the DNS collaborator, resolve_mx(domain) giving
the exchange hostnames in priority order, or failure. -/
structure DnsEnv where
  resolveMx : String → Option (List String)

/-- Modelled from the spec: the SMTP collaborator; one connect-helo-mail-rcpt
exchange against one host for one address, giving the RCPT reply code, or
none for a connection or protocol failure. -/
structure SmtpEnv where
  rcptReply : String → String → Option Nat

/-- Modelled from the spec: the domain of a candidate address. -/
def domainOf (email : String) : String :=
  match splitOnce email "@" with
  | some pr => pr.2
  | none => email

/-- Modelled from the spec: verify_mx(domain), true iff an MX record resolves
within the bounded lifetime; false on any resolution failure. -/
def verify_mx (dns : DnsEnv) (domain : String) : Bool :=
  (dns.resolveMx domain).isSome

/-- Modelled from the spec: MX-mode verification of one address. -/
def verify_mx_mode (dns : DnsEnv) (email : String) : VerifyStatus :=
  if verify_mx dns (domainOf email) then VerifyStatus.Valid else VerifyStatus.Invalid

/-- Modelled from the spec: probe the MX hosts in priority order, counting
connections; 2xx accepts, 5xx rejects, anything else moves to the next host;
exhaustion is Unknown. -/
def smtpProbe (smtp : SmtpEnv) (email : String) : List String → Nat → VerifyStatus × Nat
  | [], n => (VerifyStatus.Unknown, n)
  | h :: t, n =>
    match smtp.rcptReply h email with
    | some code =>
      if 200 ≤ code ∧ code < 300 then (VerifyStatus.Valid, n + 1)
      else if 500 ≤ code ∧ code < 600 then (VerifyStatus.Invalid, n + 1)
      else smtpProbe smtp email t (n + 1)
    | none => smtpProbe smtp email t (n + 1)

/-- Modelled from the spec: SMTP-mode verification first requires the MX
check to pass and only then opens SMTP connections. Returns the status and
the number of SMTP connections opened. -/
def verify_smtp_mode (dns : DnsEnv) (smtp : SmtpEnv) (email : String) :
    VerifyStatus × Nat :=
  if verify_mx dns (domainOf email) then
    smtpProbe smtp email ((dns.resolveMx (domainOf email)).getD []) 0
  else (VerifyStatus.Invalid, 0)

/-- A DNS collaborator with no MX records at all. -/
def noMxDns : DnsEnv := { resolveMx := fun _ => none }

/-- An SMTP collaborator whose every connection fails. -/
def failSmtp : SmtpEnv := { rcptReply := fun _ _ => none }

end EmailApp

/-- C2: the garbage classifier decides the six literal boundary cases exactly as
listed in the spec: the image-suffix domain, the 16-character hex local part,
the excluded keyword, the plain personal address, the double at sign, and the
noise domain substring. -/
theorem C2_classifier_boundary_cases :
    EmailApp.looks_like_garbage "user@2x.png" = true ∧
    EmailApp.looks_like_garbage "a1b2c3d4e5f6a7b8@mailservice.io" = true ∧
    EmailApp.looks_like_garbage "noreply@company.com" = true ∧
    EmailApp.looks_like_garbage "jane.doe@acme.co" = false ∧
    EmailApp.looks_like_garbage "broken@@x.com" = true ∧
    EmailApp.looks_like_garbage "person@sentrydash.io" = true := by
  refine ⟨?_, ?_, ?_, ?_, ?_, ?_⟩ <;> decide

/-- C3: on the literal spec markup (a mailto anchor for joe at acme dot com with
a subject query, and visible text mentioning sue at acme dot com), the
extractor returns exactly the two addresses. -/
theorem C3_extraction_completeness :
    EmailApp.extract_emails_from_html
      "<a href=\"mailto:joe@acme.com?subject=hi\">Contact</a><p>Reach sue@acme.com</p>"
      (some EmailApp.docC3)
      = ({"joe@acme.com", "sue@acme.com"} : Finset String) := by
  decide

/-- C6 counterexample: a mailto anchor whose target is not an email address at
all still lands in the extractor output, so not every returned string matches
the structural email grammar. -/
theorem C6_counterexample_mailto_nonemail :
    "zzz" ∈ EmailApp.extract_emails_from_html "x"
      (some ⟨["mailto:zzz"], [], [], [], [], []⟩) ∧
    EmailApp.emailFullmatch "zzz".data = false := by
  constructor
  · decide
  · decide

/-- C6 amended: every string returned by the extractor is lowercase (a fixed
point of the lowercase map), and is either a full match of the structural
email pattern or the processed target of some mailto anchor of the document;
mailto-derived strings are not guaranteed to match the pattern. -/
theorem C6_amended_extract_shape (html : String) (parsed : Option EmailApp.HtmlDoc)
    (e : String) (h : e ∈ EmailApp.extract_emails_from_html html parsed) :
    EmailApp.pyLower e = e ∧
      (EmailApp.emailFullmatch e.data = true ∨
        ∃ doc, parsed = some doc ∧
          ∃ href ∈ doc.anchorHrefs, EmailApp.mailtoEmailOf href = some e) :=
  EmailApp.mem_extract_spec h

theorem C6_amended_extract_shape_witness :
    ("a@b.co" ∈ EmailApp.extract_emails_from_html "a@b.co" none) ∧
      (EmailApp.pyLower "a@b.co" = "a@b.co" ∧
        (EmailApp.emailFullmatch "a@b.co".data = true ∨
          ∃ doc, (none : Option EmailApp.HtmlDoc) = some doc ∧
            ∃ href ∈ doc.anchorHrefs, EmailApp.mailtoEmailOf href = some "a@b.co")) :=
  ⟨by decide, C6_amended_extract_shape "a@b.co" none "a@b.co" (by decide)⟩

/-- C7: the extractor is a total function of its input (the model never
raises), its output contains every lowercased whole-document regex match for
every parse outcome, and when the HTML parse fails the output is exactly the
regex-scan set. -/
theorem C7_regex_subset_and_graceful (html : String) (parsed : Option EmailApp.HtmlDoc)
    (e : String) (h : e ∈ EmailApp.regexEmailsOf html) :
    e ∈ EmailApp.extract_emails_from_html html parsed ∧
      EmailApp.extract_emails_from_html html none
        = EmailApp.addAll (EmailApp.regexEmailsOf html) ∅ :=
  ⟨EmailApp.extract_contains_regex h, EmailApp.extract_parse_failure html⟩

theorem C7_regex_subset_and_graceful_witness :
    ("a@b.co" ∈ EmailApp.regexEmailsOf "see a@b.co") ∧
      ("a@b.co" ∈ EmailApp.extract_emails_from_html "see a@b.co" none ∧
        EmailApp.extract_emails_from_html "see a@b.co" none
          = EmailApp.addAll (EmailApp.regexEmailsOf "see a@b.co") ∅) :=
  ⟨by decide, C7_regex_subset_and_graceful "see a@b.co" none "a@b.co" (by decide)⟩

/-- C4: for every environment, seed, depth and page limit N, a single-site
crawl dequeues and fetches at most N pages (the page counter equals the
number of dequeues and never exceeds N, for every link graph the environment
may present, cycles included). -/
theorem C4_crawl_terminates_within_max_pages (env : EmailApp.CrawlEnv) (url : String)
    (d N : Nat) :
    (EmailApp.crawl_site env url d N).pages_crawled ≤ N ∧
      (EmailApp.crawl_site env url d N).pages_crawled
        = (EmailApp.crawl_site env url d N).fetched.length := by
  rw [EmailApp.crawl_site]
  rcases hp : EmailApp.pyUrlparse url with _ | p
  · exact ⟨Nat.zero_le N, rfl⟩
  · dsimp only
    by_cases hn : p.netloc = ""
    · rw [if_pos hn]
      exact ⟨Nat.zero_le N, rfl⟩
    · rw [if_neg hn]
      refine ⟨EmailApp.crawlLoop_pages_le N _ (Nat.zero_le N),
        EmailApp.crawlLoop_pages_fetched N _ rfl⟩

/-- C5: every page a crawl ever dequeues is the seed itself or a URL that
parses to an http or https location whose host equals the seed host (links
are joined, filtered to the seed host, defragmented, and the defragmented
form preserves scheme and host). -/
theorem C5_same_domain_containment (env : EmailApp.CrawlEnv) (url : String)
    (d N : Nat) (u : String) (hu : u ∈ (EmailApp.crawl_site env url d N).fetched) :
    u = url ∨ ∃ p q, EmailApp.pyUrlparse url = some p ∧
      EmailApp.pyUrlparse u = some q ∧
      (q.scheme = "http" ∨ q.scheme = "https") ∧ q.netloc = p.netloc := by
  rw [EmailApp.crawl_site] at hu
  rcases hp : EmailApp.pyUrlparse url with _ | p
  · rw [hp] at hu
    exact absurd hu (List.not_mem_nil u)
  · rw [hp] at hu
    dsimp only at hu
    by_cases hn : p.netloc = ""
    · rw [if_pos hn] at hu
      exact absurd hu (List.not_mem_nil u)
    · rw [if_neg hn] at hu
      have hinv := EmailApp.crawlLoop_fetched_inv hn
        (fun v => v = url ∨ EmailApp.GoodUrl p.netloc v)
        (fun v hv => Or.inr hv) N
        { toVisit := [(url, 0)]
          seen := [url]
          found := ∅
          pages := 0
          errMsg := none
          fetched := []
          retrieved := [] }
        (by
          intro pr hpr
          rw [List.mem_singleton.1 hpr]
          exact Or.inl rfl)
        (by
          intro v hv
          exact absurd hv (List.not_mem_nil v))
        u hu
      rcases hinv with h | ⟨q, hq1, hq2, hq3⟩
      · exact Or.inl h
      · exact Or.inr ⟨p, q, rfl, hq1, hq2, hq3⟩

theorem C5_same_domain_containment_witness :
    ("https://a.com" ∈ (EmailApp.crawl_site EmailApp.timeoutEnv "https://a.com" 2 5).fetched) ∧
      ("https://a.com" = "https://a.com" ∨ ∃ p q,
        EmailApp.pyUrlparse "https://a.com" = some p ∧
        EmailApp.pyUrlparse "https://a.com" = some q ∧
        (q.scheme = "http" ∨ q.scheme = "https") ∧ q.netloc = p.netloc) :=
  ⟨by decide, C5_same_domain_containment EmailApp.timeoutEnv "https://a.com" 2 5
    "https://a.com" (by decide)⟩

/-- C10: pages_crawled counts exactly the frontier dequeues (fetch attempts),
also when the fetch fails, so it can exceed the number of pages whose body
was retrieved: with an environment that always times out, one page is
counted and none is retrieved. -/
theorem C10_pages_crawled_counts_attempts (env : EmailApp.CrawlEnv) (url : String)
    (d N : Nat) :
    ((EmailApp.crawl_site env url d N).pages_crawled
        = (EmailApp.crawl_site env url d N).fetched.length ∧
      (EmailApp.crawl_site env url d N).retrieved.length
        ≤ (EmailApp.crawl_site env url d N).fetched.length) ∧
    ((EmailApp.crawl_site EmailApp.timeoutEnv "https://a.com" 2 5).pages_crawled = 1 ∧
      (EmailApp.crawl_site EmailApp.timeoutEnv "https://a.com" 2 5).retrieved = []) := by
  constructor
  · rw [EmailApp.crawl_site]
    rcases hp : EmailApp.pyUrlparse url with _ | p
    · exact ⟨rfl, Nat.le_refl 0⟩
    · dsimp only
      by_cases hn : p.netloc = ""
      · rw [if_pos hn]
        exact ⟨rfl, Nat.le_refl 0⟩
      · rw [if_neg hn]
        refine ⟨EmailApp.crawlLoop_pages_fetched N _ rfl,
          EmailApp.crawlLoop_retrieved_le N _ (Nat.le_refl 0)⟩
  · exact ⟨by decide, by decide⟩

/-- C1 counterexample: a crawl whose only page carries exactly one address,
which the classifier rejects, ends with an empty clean set, no error message,
and status success (the code tests the raw set, not the clean set); and a
well-formed but unreachable seed ends with status no_emails, not error. -/
theorem C1_counterexample_status :
    (EmailApp.cleanSet (EmailApp.crawl_site EmailApp.garbageOnlyEnv "https://g.com" 2 50).emails = ∅ ∧
      (EmailApp.crawl_site EmailApp.garbageOnlyEnv "https://g.com" 2 50).error_message = none ∧
      (EmailApp.crawl_site EmailApp.garbageOnlyEnv "https://g.com" 2 50).status
        = EmailApp.CrawlStatus.success) ∧
    (EmailApp.crawl_site EmailApp.timeoutEnv "https://u.com" 2 50).status
      = EmailApp.CrawlStatus.no_emails := by
  refine ⟨⟨?_, ?_, ?_⟩, ?_⟩ <;> decide

/-- C1 amended: the status is error exactly when the seed does not parse or
parses with an empty host; otherwise it is success when the raw
(pre-classifier) email set is nonempty and no_emails when that set is empty,
regardless of fetch failures and of the clean set. -/
theorem C1_amended_status (env : EmailApp.CrawlEnv) (url : String) (d N : Nat) :
    (EmailApp.crawl_site env url d N).status =
      (match EmailApp.pyUrlparse url with
       | none => EmailApp.CrawlStatus.error
       | some p =>
         if p.netloc = "" then EmailApp.CrawlStatus.error
         else if (EmailApp.crawl_site env url d N).emails = ∅ then
           EmailApp.CrawlStatus.no_emails
         else EmailApp.CrawlStatus.success) := by
  rcases hp : EmailApp.pyUrlparse url with _ | p
  · rw [EmailApp.crawl_site, hp]
  · rw [EmailApp.crawl_site, hp]
    dsimp only
    by_cases hn : p.netloc = ""
    · rw [if_pos hn, if_pos hn]
    · rw [if_neg hn, if_neg hn]

/-- C8: for every completed run, the final unique email set equals the union
of the per-site clean sets over all result rows, and it has no two distinct
members that agree up to lowercasing (all members are lowercase, so the set
is duplicate-free under case-insensitive identity). -/
theorem C8_unique_is_union_of_clean (env : EmailApp.CrawlEnv) (lines : List String)
    (d N : Nat) :
    (EmailApp.runAll env lines d N).unique
        = (EmailApp.runAll env lines d N).rows.foldl (fun a r => a ∪ r.2.clean) ∅ ∧
      ∀ a ∈ (EmailApp.runAll env lines d N).unique,
        ∀ b ∈ (EmailApp.runAll env lines d N).unique,
          EmailApp.pyLower a = EmailApp.pyLower b → a = b := by
  obtain ⟨h1, h2⟩ := EmailApp.runFold_invariant env d N (lines.filterMap EmailApp.normalize_url)
    { rows := []
      unique := ∅
      totalPages := 0
      failed := [] } rfl (fun e he => absurd he (Finset.not_mem_empty e))
  refine ⟨h1, ?_⟩
  intro a ha b hb hab
  have ha2 := h2 a ha
  have hb2 := h2 b hb
  rw [← ha2, ← hb2, hab]

theorem C8_unique_is_union_of_clean_witness :
    (EmailApp.runAll EmailApp.timeoutEnv ["https://a.com"] 2 5).unique
        = (EmailApp.runAll EmailApp.timeoutEnv ["https://a.com"] 2 5).rows.foldl
            (fun a r => a ∪ r.2.clean) ∅ ∧
      ∀ a ∈ (EmailApp.runAll EmailApp.timeoutEnv ["https://a.com"] 2 5).unique,
        ∀ b ∈ (EmailApp.runAll EmailApp.timeoutEnv ["https://a.com"] 2 5).unique,
          EmailApp.pyLower a = EmailApp.pyLower b → a = b :=
  C8_unique_is_union_of_clean EmailApp.timeoutEnv ["https://a.com"] 2 5

/-- C9 (spec-modelled): for every address whose domain has no MX record,
MX-mode verification returns Invalid, and SMTP-mode verification returns
Invalid for that address without opening any SMTP connection. -/
theorem C9_no_mx_invalid (dns : EmailApp.DnsEnv) (smtp : EmailApp.SmtpEnv)
    (email : String) (h : dns.resolveMx (EmailApp.domainOf email) = none) :
    EmailApp.verify_mx_mode dns email = EmailApp.VerifyStatus.Invalid ∧
      EmailApp.verify_smtp_mode dns smtp email = (EmailApp.VerifyStatus.Invalid, 0) := by
  have hmx : EmailApp.verify_mx dns (EmailApp.domainOf email) = false := by
    rw [EmailApp.verify_mx, h]
    rfl
  constructor
  · rw [EmailApp.verify_mx_mode, if_neg (by simp [hmx])]
  · rw [EmailApp.verify_smtp_mode, if_neg (by simp [hmx])]

theorem C9_no_mx_invalid_witness :
    EmailApp.noMxDns.resolveMx (EmailApp.domainOf "a@b.co") = none ∧
      (EmailApp.verify_mx_mode EmailApp.noMxDns "a@b.co" = EmailApp.VerifyStatus.Invalid ∧
        EmailApp.verify_smtp_mode EmailApp.noMxDns EmailApp.failSmtp "a@b.co"
          = (EmailApp.VerifyStatus.Invalid, 0)) :=
  ⟨rfl, C9_no_mx_invalid EmailApp.noMxDns EmailApp.failSmtp "a@b.co" rfl⟩
